import Mathlib

/-!
Verification development for the gh-starred command-line tool.

The Go source is shallowly embedded: the paginated fetch-and-cache engine
(`getRepos`, `getReposPerPageBatch`), the topic filter in the `repos`
command, the topic index (`getTopics`), and the shell completion function
(`AppCompleter.complete`).  The external page fetch (gh.Exec plus JSON
decoding in `getReposPerPage`) is abstracted as a fetch oracle; goroutine
completion order inside a batch window is made explicit as a schedule
parameter; the unbounded `for` loop of `getRepos` is given a fuel
parameter, with fuel-sufficiency theorems expressing termination.
-/

set_option maxRecDepth 20000

/-- The `repository` struct of the source (fields `name`, `full_name`,
`topics`, `html_url`). -/
structure repository where
  Name : String
  FullName : String
  Topics : List String
  HtmlURL : String
deriving DecidableEq, Repr

/-- Outcome of running a piece of the Go program: a normal return value,
a returned error value, process termination via `log.Fatalln`, or fuel
exhaustion of the embedding (never reached with sufficient fuel). -/
inductive RunResult (α : Type) where
  | ok (a : α)
  | err (e : String)
  | fatalExit (e : String)
  | nofuel
deriving DecidableEq, Repr

/-- A page fetcher: models `getReposPerPage(page, perPage)`, whose body
(gh.Exec of `user/starred?page=..&per_page=..` plus JSON decoding) is an
external collaborator; it either returns a page of records or fails. -/
abbrev Fetch := Nat → Nat → Except String (List repository)

/-- One page of a fixed underlying dataset: records
`[(page-1)*perPage, page*perPage)` of `data`. -/
def pageSlice (data : List repository) (page perPage : Nat) : List repository :=
  (data.drop ((page - 1) * perPage)).take perPage

/-- The always-successful fetch oracle that paginates a fixed dataset. -/
def pageFetch (data : List repository) : Fetch :=
  fun page perPage => Except.ok (pageSlice data page perPage)

/-- The body of the goroutine loop of `getReposPerPageBatch`: `sched` is
the order in which the `batchSize` goroutines (goroutine `i` fetches page
`page + i`) complete and append to the shared `result` slice.  A failed
fetch executes `log.Fatalln(err)`, terminating the process. -/
def batchGo (fetch : Fetch) (page perPage : Nat) :
    List Nat → List repository → RunResult (List repository)
  | [], acc => RunResult.ok acc
  | i :: rest, acc =>
    match fetch (page + i) perPage with
    | Except.error e => RunResult.fatalExit e
    | Except.ok repos => batchGo fetch page perPage rest (acc ++ repos)

/-- `getReposPerPageBatch(page, perPage, batchSize)`: fans out one
goroutine per page in `[page, page+batchSize)`, each appending its page to
a shared slice in completion order `sched`, then joins. -/
def getReposPerPageBatch (fetch : Fetch) (page perPage batchSize : Nat)
    (sched : List Nat) : RunResult (List repository) :=
  let _ := batchSize
  batchGo fetch page perPage sched []

/-- The `for i := 1; ; i += batchSize` loop of `getRepos`: one fuel unit
per round; `scheds i` is the goroutine completion order of the window
starting at page `i`. -/
def getReposLoop (fetch : Fetch) (batchSize perPage : Nat)
    (scheds : Nat → List Nat) :
    Nat → Nat → List repository → RunResult (List repository)
  | 0, _, _ => RunResult.nofuel
  | fuel + 1, i, starredRepos =>
    let step : RunResult (List repository) :=
      if batchSize == 1 then
        match fetch i perPage with
        | Except.error e => RunResult.err e
        | Except.ok repos => RunResult.ok repos
      else getReposPerPageBatch fetch i perPage batchSize (scheds i)
    match step with
    | RunResult.ok repos =>
      if repos.length < perPage * batchSize then
        RunResult.ok (starredRepos ++ repos)
      else
        getReposLoop fetch batchSize perPage scheds fuel (i + batchSize)
          (starredRepos ++ repos)
    | r => r

/-- `getRepos(batchSize, useCache)`: returns the cached list when the
process-wide cache slot is populated and `useCache` holds; otherwise runs
the pagination loop (with `perPage = 100`) and, on success, stores the
result in the cache.  Returns the run outcome together with the cache
slot after the call. -/
def getRepos (fetch : Fetch) (batchSize : Nat) (useCache : Bool)
    (cache : Option (List repository)) (scheds : Nat → List Nat)
    (fuel : Nat) : RunResult (List repository) × Option (List repository) :=
  match cache, useCache with
  | some rs, true => (RunResult.ok rs, some rs)
  | _, _ =>
    match getReposLoop fetch batchSize 100 scheds fuel 1 [] with
    | RunResult.ok starred => (RunResult.ok starred, some starred)
    | r => (r, cache)

/-- Goroutines completing in ascending page order, in every window. -/
def ascScheds (batchSize : Nat) : Nat → List Nat :=
  fun _ => List.range batchSize

/-- The per-record predicate of the `repos` command: print a record when
no topics were requested, or when one of its topics equals one of the
requested topics (the nested loop with early `break`). -/
def shouldPrint (topics : List String) (repo : repository) : Bool :=
  if topics.length == 0 then true
  else repo.Topics.any (fun t1 => topics.any (fun t2 => t1 == t2))

/-- The rows the `repos` command appends to the table, in input order. -/
def filterRepos (repos : List repository) (topics : List String) :
    List repository :=
  repos.filter (shouldPrint topics)

/-- The pure part of `getTopics` (lines collecting the topic set and
sorting it): every topic of every record, de-duplicated and sorted in
ascending string order.  The Go map iteration order is irrelevant because
the final `sort.Slice` with a strict `<` on distinct keys has a unique
sorted result; `sort.Slice` is modelled by insertion sort. -/
def topicsOfRepos (repos : List repository) : List String :=
  ((repos.flatMap (fun r => r.Topics)).dedup).insertionSort (fun a b => a ≤ b)

/-- `getTopics(batchSize)`: fetch (or read cached) repositories, then
derive the sorted topic vocabulary. -/
def getTopics (fetch : Fetch) (batchSize : Nat)
    (cache : Option (List repository)) (scheds : Nat → List Nat)
    (fuel : Nat) : RunResult (List String) × Option (List repository) :=
  match getRepos fetch batchSize true cache scheds fuel with
  | (RunResult.ok rs, st) => (RunResult.ok (topicsOfRepos rs), st)
  | (RunResult.err e, st) => (RunResult.err e, st)
  | (RunResult.fatalExit e, st) => (RunResult.fatalExit e, st)
  | (RunResult.nofuel, st) => (RunResult.nofuel, st)

/-- A completion suggestion (go-prompt's Suggest: text and description). -/
structure Suggest where
  Text : String
  Description : String
deriving DecidableEq, Repr

/-- The statically registered metadata of one command: name, usage and,
per flag, the flag's `Names()` (primary name then aliases). -/
structure cmdMeta where
  name : String
  usage : String
  flags : List (List String)
deriving DecidableEq, Repr

/-- The command set registered in `main`: repos (whose `topics` flag has
alias `t`), topics and shell. -/
def appCommands : List cmdMeta :=
  [ { name := "repos", usage := "list your starred repositories",
      flags := [["topics", "t"]] },
    { name := "topics", usage := "list topics in your starred repositories",
      flags := [] },
    { name := "shell", usage := "activate interactive shell mode",
      flags := [] } ]

/-- Modelled from the spec: `strings.TrimLeft(s, " ")` of the Go standard
library, stripping leading spaces. -/
def trimLeftSpaces (l : List Char) : List Char :=
  l.dropWhile (fun c => c == ' ')

/-- Modelled from the spec: the line-editing collaborator's
`lineBeforeCursor[:FindStartOfPreviousWord()]` — everything up to and
including the last space of the line before the cursor (empty when the
line has no space). -/
def upToLastSpace (l : List Char) : List Char :=
  (l.reverse.dropWhile (fun c => c != ' ')).reverse

/-- Modelled from the spec: the line-editing collaborator's
`GetWordBeforeCursor()` — the word fragment immediately preceding the
cursor, i.e. the maximal space-free suffix of the line before the
cursor. -/
def wordBeforeCursor (l : List Char) : List Char :=
  (l.reverse.takeWhile (fun c => c != ' ')).reverse

/-- Go's `unicode.IsSpace`: the Unicode white-space code points (the
Latin-1 ones, including U+0085 and the no-break space U+00A0, and the
White_Space property beyond Latin-1). -/
def isGoSpace (c : Char) : Bool :=
  let n := c.toNat
  n == 0x9 || n == 0xA || n == 0xB || n == 0xC || n == 0xD || n == 0x20 ||
  n == 0x85 || n == 0xA0 || n == 0x1680 ||
  (decide (0x2000 ≤ n) && decide (n ≤ 0x200A)) ||
  n == 0x2028 || n == 0x2029 || n == 0x202F || n == 0x205F || n == 0x3000

/-- Accumulator-passing splitter behind `fields`. -/
def fieldsAux : List Char → List Char → List (List Char)
  | [], cur => if cur.isEmpty then [] else [cur]
  | c :: cs, cur =>
    if isGoSpace c then
      if cur.isEmpty then fieldsAux cs [] else cur :: fieldsAux cs []
    else fieldsAux cs (cur ++ [c])

/-- Modelled from the spec: `strings.Fields` of the Go standard library —
the maximal runs of characters that are not Unicode whitespace
(`unicode.IsSpace`), in order. -/
def fields (l : List Char) : List (List Char) :=
  fieldsAux l []

/-- Case-sensitive subsequence test behind the fuzzy filter. -/
def subseq : List Char → List Char → Bool
  | [], _ => true
  | _ :: _, [] => false
  | a :: as, b :: bs => if a == b then subseq as bs else subseq (a :: as) bs

/-- Modelled from the spec: go-prompt's `FilterFuzzy(s, frag, true)` — a
suggestion is retained when the fragment's characters appear, in order
and case-insensitively, as a subsequence of the suggestion text;
retention preserves the original suggestion order. -/
def filterFuzzy (s : List Suggest) (frag : List Char) : List Suggest :=
  s.filter (fun sg =>
    subseq (frag.map Char.toLower) (sg.Text.data.map Char.toLower))

/-- `AppCompleter.complete`, as a function of the getTopics call's result
(the lazy topic fetch, discarding its error: `topics, _ := getTopics(..)`)
and the line before the cursor.  At the first word it suggests command
names; after `repos -t` or `repos --topics` it suggests topics; after a
known command it suggests its flags (single dash for one-character names,
double dash otherwise); otherwise nothing.  `words[0]` and
`words[len(words)-1]` (which panic in Go on an empty slice) are modelled
with defaults; `complete_words_empty_unicode_space` shows the slice can
in fact be empty where they are evaluated, so the Go accesses can
panic. -/
def complete (topicsResult : Except String (List String))
    (lineBeforeCursor : List Char) : List Suggest :=
  if !((trimLeftSpaces lineBeforeCursor).contains ' ') then
    filterFuzzy
      (appCommands.map (fun cmd => { Text := cmd.name, Description := cmd.usage }))
      (wordBeforeCursor lineBeforeCursor)
  else
    let words := fields (upToLastSpace lineBeforeCursor)
    let lastWord := words.getLastD []
    let cmdWord := words.headD []
    let isAtTopic := cmdWord == "repos".data &&
      (lastWord == "-t".data || lastWord == "--topics".data)
    if isAtTopic then
      let topics := match topicsResult with
        | Except.ok ts => ts
        | Except.error _ => []
      filterFuzzy (topics.map (fun t => { Text := t, Description := "" }))
        (wordBeforeCursor lineBeforeCursor)
    else
      match appCommands.find? (fun c => c.name.data == cmdWord) with
      | some cmd =>
        filterFuzzy
          (cmd.flags.flatMap (fun names => names.map (fun n =>
            { Text := (if n.length == 1 then "-" else "--") ++ n,
              Description := "" })))
          (wordBeforeCursor lineBeforeCursor)
      | none => []

/-- Claim C5: the `repos` command's topic filter passes everything through
when no topics are requested, is an order-preserving subsequence of its
input, and keeps a record exactly when one of its topics equals (case
sensitively) one of the requested topics. -/
theorem filterRepos_spec (rs : List repository) (ts : List String) :
    filterRepos rs [] = rs ∧
    (filterRepos rs ts).Sublist rs ∧
    ∀ r, r ∈ filterRepos rs ts ↔
      r ∈ rs ∧ (ts = [] ∨ ∃ t, t ∈ r.Topics ∧ t ∈ ts) := by
  refine ⟨List.filter_eq_self.mpr (fun a _ => rfl), List.filter_sublist _, ?_⟩
  intro r
  rw [filterRepos, List.mem_filter]
  refine and_congr_right (fun _ => ?_)
  cases ts with
  | nil => simp [shouldPrint]
  | cons t ts' => simp [shouldPrint]

/-- Claim C6: the topic index is the deduplicated, lexicographically
ascending list of all topics occurring in the records; empty input yields
the empty list; records with topics [[b, a], [a, c]] yield [a, b, c]. -/
theorem topicsOfRepos_spec (rs : List repository) :
    topicsOfRepos [] = [] ∧
    List.Sorted (fun a b => a < b) (topicsOfRepos rs) ∧
    (∀ t, t ∈ topicsOfRepos rs ↔ ∃ r, r ∈ rs ∧ t ∈ r.Topics) ∧
    topicsOfRepos
      [ { Name := "", FullName := "", Topics := ["b", "a"], HtmlURL := "" },
        { Name := "", FullName := "", Topics := ["a", "c"], HtmlURL := "" } ] =
      ["a", "b", "c"] := by
  refine ⟨rfl, ?_, ?_, ?_⟩
  · have hs : List.Sorted (fun a b : String => a ≤ b) (topicsOfRepos rs) :=
      List.sorted_insertionSort _ _
    have hn : (topicsOfRepos rs).Nodup := by
      have := List.perm_insertionSort (fun a b : String => a ≤ b)
        ((rs.flatMap (fun r => r.Topics)).dedup)
      exact this.nodup_iff.mpr (List.nodup_dedup _)
    have := List.Pairwise.and hs hn
    exact this.imp (fun h => lt_of_le_of_ne h.1 h.2)
  · intro t
    have hp := List.perm_insertionSort (fun a b : String => a ≤ b)
      ((rs.flatMap (fun r => r.Topics)).dedup)
    rw [topicsOfRepos, hp.mem_iff, List.mem_dedup, List.mem_flatMap]
  · have hper : List.Perm (topicsOfRepos
        [ { Name := "", FullName := "", Topics := ["b", "a"], HtmlURL := "" },
          { Name := "", FullName := "", Topics := ["a", "c"], HtmlURL := "" } ])
        ["a", "b", "c"] := by
      have h1 := List.perm_insertionSort (fun a b : String => a ≤ b)
        (((
          [ { Name := "", FullName := "", Topics := ["b", "a"], HtmlURL := "" },
            { Name := "", FullName := "", Topics := ["a", "c"], HtmlURL := "" } ]
          : List repository).flatMap (fun r => r.Topics)).dedup)
      refine h1.trans ?_
      have h2 : (((
          [ { Name := "", FullName := "", Topics := ["b", "a"], HtmlURL := "" },
            { Name := "", FullName := "", Topics := ["a", "c"], HtmlURL := "" } ]
          : List repository).flatMap (fun r => r.Topics)).dedup) = ["b", "a", "c"] := by
        decide
      rw [h2]
      decide
    have hs1 : List.Sorted (fun a b : String => a ≤ b) (topicsOfRepos
        [ { Name := "", FullName := "", Topics := ["b", "a"], HtmlURL := "" },
          { Name := "", FullName := "", Topics := ["a", "c"], HtmlURL := "" } ]) :=
      List.sorted_insertionSort _ _
    have hs2 : List.Sorted (fun a b : String => a ≤ b) ["a", "b", "c"] := by
      simp [List.sorted_cons]
      decide
    exact List.eq_of_perm_of_sorted hper hs1 hs2

/-- Claim C4: with the cache unpopulated, a successful `getRepos` call
stores its result in the cache, and every later call with `useCache` set
returns the stored list unchanged — for any fetcher, any batch size, any
schedule and any fuel, so in particular without invoking the fetcher. -/
theorem getRepos_cache_idempotent (fetch : Fetch) (batchSize : Nat)
    (scheds : Nat → List Nat) (fuel : Nat) (res : List repository)
    (st : Option (List repository))
    (h : getRepos fetch batchSize true none scheds fuel = (RunResult.ok res, st)) :
    st = some res ∧
    ∀ (fetch' : Fetch) (batchSize' fuel' : Nat) (scheds' : Nat → List Nat),
      getRepos fetch' batchSize' true (some res) scheds' fuel' =
        (RunResult.ok res, some res) := by
  constructor
  · cases hl : getReposLoop fetch batchSize 100 scheds fuel 1 [] with
    | ok starred =>
      simp only [getRepos, hl, Prod.mk.injEq, RunResult.ok.injEq] at h
      obtain ⟨h1, h2⟩ := h
      subst h1
      exact h2.symm
    | err e => simp only [getRepos, hl, Prod.mk.injEq] at h; exact absurd h.1 (by simp)
    | fatalExit e => simp only [getRepos, hl, Prod.mk.injEq] at h; exact absurd h.1 (by simp)
    | nofuel => simp only [getRepos, hl, Prod.mk.injEq] at h; exact absurd h.1 (by simp)
  · intro fetch' batchSize' fuel' scheds'
    rfl

/-- Claim C4 witness: populating the cache from an empty dataset at batch
size 1, then reading it back with a failing fetcher at batch size 3 and
zero fuel, still returns the stored (empty) list. -/
theorem getRepos_cache_idempotent_witness :
    getRepos (fun _ _ => Except.error ("x")) 3 true (some []) (fun _ => []) 0 =
      (RunResult.ok [], some []) :=
  (getRepos_cache_idempotent (pageFetch []) 1 (fun _ => [0]) 1 [] (some [])
    (by decide)).2 (fun _ _ => Except.error ("x")) 3 0 (fun _ => [])

/-- Claim C7: on the line `repos --t` the completion function yields no
command suggestion and exactly the flag suggestion `--topics`, whatever
the topic fetch would return; on `repos -` it shows the repos command's
flag pool, multi-character names with a double dash and single-character
names with a single dash. -/
theorem complete_flag_suggestions :
    ∀ tr : Except String (List String),
      complete tr ("repos --t".data) =
        [{ Text := "--topics", Description := "" }] ∧
      complete tr ("repos -".data) =
        [{ Text := "--topics", Description := "" },
         { Text := "-t", Description := "" }] := by
  intro tr
  exact ⟨rfl, rfl⟩

/-- Claim C2: when every page fetch fails, a batched window terminates the
process from inside a worker (log.Fatalln) instead of returning the error,
while the sequential batch size 1 path returns the error value; in either
case nothing is stored in the cache. -/
theorem getRepos_batch_error_fatal :
    getRepos (fun _ _ => Except.error ("boom")) 2 true none (ascScheds 2) 1 =
      (RunResult.fatalExit ("boom"), none) ∧
    getRepos (fun _ _ => Except.error ("boom")) 1 true none (ascScheds 1) 1 =
      (RunResult.err ("boom"), none) := by
  exact ⟨rfl, rfl⟩

/-- A dataset of 101 pairwise distinct records: pages 1 and 2 (at 100
records per page) are both nonempty. -/
def sampleRepo (n : Nat) : repository :=
  { Name := Nat.repr n, FullName := "", Topics := [], HtmlURL := "" }

def data101 : List repository :=
  (List.range 101).map sampleRepo

/-- Claim C1: with 101 underlying records and batch size 2, a window whose
page 2 goroutine appends before page 1's produces the pages in completion
order, not ascending page order, so the result differs from the batch
size 1 fetch of the same data (which returns the records in order). -/
theorem getRepos_batch_order_race :
    (getRepos (pageFetch data101) 2 true none (fun _ => [1, 0]) 1).1 =
      RunResult.ok (pageSlice data101 2 100 ++ pageSlice data101 1 100) ∧
    (getRepos (pageFetch data101) 1 true none (ascScheds 1) 2).1 =
      RunResult.ok data101 ∧
    getRepos (pageFetch data101) 2 true none (fun _ => [1, 0]) 1 ≠
      getRepos (pageFetch data101) 1 true none (ascScheds 1) 2 := by
  refine ⟨by decide, by decide, by decide⟩

/-- Claim C10: refuted on the source.  The branch condition
(`strings.Contains` after `strings.TrimLeft` with cutset " ") and the
line editor’s `FindStartOfPreviousWord` consider only the ASCII space,
while `strings.Fields` splits on every Unicode white-space character.
On the line [U+00A0, ' ', 'x'] (a no-break space, an ASCII space, then a
word) the post-command branch is reached — trimming ASCII spaces removes
nothing and the line contains a space — yet the split prefix
[U+00A0, ' '] has no fields, because the no-break space is Unicode
whitespace: `words` is empty, and Go’s `words[len(words)-1]` indexes at
-1 and panics. -/
theorem complete_words_empty_unicode_space :
    (trimLeftSpaces [Char.ofNat 0xA0, ' ', 'x']).contains ' ' = true ∧
    upToLastSpace [Char.ofNat 0xA0, ' ', 'x'] = [Char.ofNat 0xA0, ' '] ∧
    fields (upToLastSpace [Char.ofNat 0xA0, ' ', 'x']) = [] := by
  refine ⟨by decide, by decide, by decide⟩

/-- Claim C8: when the first word of the line is `repos` and the word
before the current fragment is `-t` or `--topics`, completion suggests the
fetched topic list fuzzy-filtered against the fragment; on the line
`repos -t cl` with topics [cli, web] the only suggestion is `cli`. -/
theorem complete_topic_values (ts : List String) (l : List Char)
    (h1 : (trimLeftSpaces l).contains ' ' = true)
    (h2 : (fields (upToLastSpace l)).headD [] = "repos".data)
    (h3 : (fields (upToLastSpace l)).getLastD [] = "-t".data ∨
          (fields (upToLastSpace l)).getLastD [] = "--topics".data) :
    complete (Except.ok ts) l =
      filterFuzzy (ts.map (fun t => { Text := t, Description := "" }))
        (wordBeforeCursor l) ∧
    complete (Except.ok ["cli", "web"]) ("repos -t cl".data) =
      [{ Text := "cli", Description := "" }] := by
  constructor
  · have h1' : ' ' ∈ trimLeftSpaces l := by simpa using h1
    simp only [List.headD_eq_head?_getD] at h2
    rcases h3 with h3 | h3 <;>
      simp only [List.getLastD_eq_getLast?] at h3 <;>
      simp [complete, h1', h2, h3]
  · decide

/-- Claim C8 witness: the general topic-value branch applied to the line
`repos -t cl` with cached topics [cli, web]. -/
theorem complete_topic_values_witness :
    complete (Except.ok ["cli", "web"]) ("repos -t cl".data) =
      filterFuzzy ((["cli", "web"]).map (fun t => { Text := t, Description := "" }))
        (wordBeforeCursor ("repos -t cl".data)) :=
  (complete_topic_values ["cli", "web"] ("repos -t cl".data) (by decide) (by decide)
    (Or.inl (by decide))).1

/-- Claim C9: in the topic-value state a failed topic fetch is discarded
(`topics, _ := getTopics(..)`): completion returns the fuzzy filter of
zero suggestions, the empty sequence, instead of an error. -/
theorem complete_fetch_error_empty (e : String) (l : List Char)
    (h1 : (trimLeftSpaces l).contains ' ' = true)
    (h2 : (fields (upToLastSpace l)).headD [] = "repos".data)
    (h3 : (fields (upToLastSpace l)).getLastD [] = "-t".data ∨
          (fields (upToLastSpace l)).getLastD [] = "--topics".data) :
    complete (Except.error e) l = [] := by
  have h1' : ' ' ∈ trimLeftSpaces l := by simpa using h1
  simp only [List.headD_eq_head?_getD] at h2
  rcases h3 with h3 | h3 <;>
    simp only [List.getLastD_eq_getLast?] at h3 <;>
    simp [complete, h1', h2, h3, filterFuzzy]

/-- Claim C9 witness: a failing topic fetch on the line `repos -t cl`
yields no suggestions and no error. -/
theorem complete_fetch_error_empty_witness :
    complete (Except.error ("boom")) ("repos -t cl".data) = [] :=
  complete_fetch_error_empty ("boom") ("repos -t cl".data) (by decide) (by decide)
    (Or.inl (by decide))

/-- Over the pure pagination oracle a batch window returns the pages in
completion order. -/
theorem batchGo_pageFetch (data : List repository) (page perPage : Nat) :
    ∀ (sched : List Nat) (acc : List repository),
      batchGo (pageFetch data) page perPage sched acc =
        RunResult.ok
          (acc ++ sched.flatMap (fun i => pageSlice data (page + i) perPage)) := by
  intro sched
  induction sched with
  | nil => intro acc; simp [batchGo]
  | cons i rest ih =>
    intro acc
    simp [batchGo, pageFetch, ih (acc ++ pageSlice data (page + i) perPage)]

/-- A window of consecutive pages read in ascending order is one
contiguous slice of the dataset. -/
theorem flatMap_range_pageSlice (data : List repository) (perPage : Nat) :
    ∀ (b page : Nat), 1 ≤ page →
      (List.range b).flatMap (fun i => pageSlice data (page + i) perPage) =
        (data.drop ((page - 1) * perPage)).take (perPage * b) := by
  intro b
  induction b with
  | zero => intro page hp; simp
  | succ b ih =>
    intro page hp
    rw [List.range_succ_eq_map, List.flatMap_cons, List.flatMap_map]
    have hfun : (fun a : Nat => pageSlice data (page + a.succ) perPage) =
        (fun i => pageSlice data (page + 1 + i) perPage) := by
      funext i
      congr 1
      omega
    rw [hfun, ih (page + 1) (by omega)]
    have hidx : perPage * (b + 1) = perPage + perPage * b := by ring
    rw [hidx, List.take_add, List.drop_drop]
    have h2 : (page - 1) * perPage + perPage = page * perPage := by
      have h3 : page - 1 + 1 = page := by omega
      calc (page - 1) * perPage + perPage = ((page - 1) + 1) * perPage := by ring
        _ = page * perPage := by rw [h3]
    rw [h2]
    simp [pageSlice]

/-- With ascending completion order over the pure pagination oracle, the
fetch loop started at any page with enough fuel returns all remaining
records: one fuel unit per round, `remaining / (perPage * batchSize) + 1`
rounds in total. -/
theorem getReposLoop_pageFetch_ok (data : List repository) (b perPage : Nat)
    (hb : 1 ≤ b) (hpp : 1 ≤ perPage) (scheds : Nat → List Nat)
    (hs : ∀ i, scheds i = List.range b) :
    ∀ (fuel page : Nat) (acc : List repository), 1 ≤ page →
      (data.drop ((page - 1) * perPage)).length / (perPage * b) + 1 ≤ fuel →
      getReposLoop (pageFetch data) b perPage scheds fuel page acc =
        RunResult.ok (acc ++ data.drop ((page - 1) * perPage)) := by
  have hn : 0 < perPage * b := Nat.mul_pos (by omega) (by omega)
  intro fuel
  induction fuel with
  | zero => intro page acc hp hf; exact absurd hf (Nat.not_succ_le_zero _)
  | succ fuel ih =>
    intro page acc hp hf
    have hstep : (if b == 1 then
        match pageFetch data page perPage with
        | Except.error e => RunResult.err e
        | Except.ok repos => RunResult.ok repos
      else getReposPerPageBatch (pageFetch data) page perPage b (scheds page)) =
        RunResult.ok ((data.drop ((page - 1) * perPage)).take (perPage * b)) := by
      by_cases hb1 : b = 1
      · subst hb1
        simp [pageFetch, pageSlice, Nat.mul_one]
      · have hbeq : (b == 1) = false := by simp [hb1]
        rw [hbeq]
        simp only [Bool.false_eq_true, if_false, getReposPerPageBatch, hs page,
          batchGo_pageFetch, List.nil_append]
        rw [flatMap_range_pageSlice data perPage b page hp]
    simp only [getReposLoop]
    rw [hstep]
    dsimp only
    by_cases hlt : ((data.drop ((page - 1) * perPage)).take (perPage * b)).length <
        perPage * b
    · rw [if_pos hlt]
      have hshort : (data.drop ((page - 1) * perPage)).length < perPage * b := by
        rw [List.length_take] at hlt
        omega
      rw [List.take_of_length_le (by omega)]
    · rw [if_neg hlt]
      have hfull : perPage * b ≤ (data.drop ((page - 1) * perPage)).length := by
        rw [List.length_take] at hlt
        omega
      have hdd : (page + b - 1) * perPage = (page - 1) * perPage + perPage * b := by
        have h4 : page + b - 1 = (page - 1) + b := by omega
        rw [h4]
        ring
      have hrw : data.drop ((page + b - 1) * perPage) =
          ((data.drop ((page - 1) * perPage)).drop (perPage * b)) := by
        rw [List.drop_drop, hdd]
      have hdiv := Nat.div_eq_sub_div hn hfull
      have hlen : ((data.drop ((page - 1) * perPage)).drop (perPage * b)).length =
          (data.drop ((page - 1) * perPage)).length - perPage * b := by
        simp only [List.length_drop]
      have hcond : (data.drop ((page + b - 1) * perPage)).length / (perPage * b) + 1 ≤
          fuel := by
        rw [hrw, hlen]
        omega
      have := ih (page + b)
        (acc ++ (data.drop ((page - 1) * perPage)).take (perPage * b)) (by omega) hcond
      rw [this, hrw, List.append_assoc, List.take_append_drop]

/-- With one fuel unit short of the round count, the loop runs out of
fuel: together with the previous theorem this counts the rounds
exactly. -/
theorem getReposLoop_pageFetch_nofuel (data : List repository) (b perPage : Nat)
    (hb : 1 ≤ b) (hpp : 1 ≤ perPage) (scheds : Nat → List Nat)
    (hs : ∀ i, scheds i = List.range b) :
    ∀ (fuel page : Nat) (acc : List repository), 1 ≤ page →
      fuel ≤ (data.drop ((page - 1) * perPage)).length / (perPage * b) →
      getReposLoop (pageFetch data) b perPage scheds fuel page acc =
        RunResult.nofuel := by
  have hn : 0 < perPage * b := Nat.mul_pos (by omega) (by omega)
  intro fuel
  induction fuel with
  | zero => intro page acc hp hf; simp [getReposLoop]
  | succ fuel ih =>
    intro page acc hp hf
    have hone : 1 ≤ (data.drop ((page - 1) * perPage)).length / (perPage * b) := by
      omega
    have hfull : perPage * b ≤ (data.drop ((page - 1) * perPage)).length :=
      (Nat.one_le_div_iff hn).mp hone
    have hstep : (if b == 1 then
        match pageFetch data page perPage with
        | Except.error e => RunResult.err e
        | Except.ok repos => RunResult.ok repos
      else getReposPerPageBatch (pageFetch data) page perPage b (scheds page)) =
        RunResult.ok ((data.drop ((page - 1) * perPage)).take (perPage * b)) := by
      by_cases hb1 : b = 1
      · subst hb1
        simp [pageFetch, pageSlice, Nat.mul_one]
      · have hbeq : (b == 1) = false := by simp [hb1]
        rw [hbeq]
        simp only [Bool.false_eq_true, if_false, getReposPerPageBatch, hs page,
          batchGo_pageFetch, List.nil_append]
        rw [flatMap_range_pageSlice data perPage b page hp]
    simp only [getReposLoop]
    rw [hstep]
    dsimp only
    have hlt : ¬(((data.drop ((page - 1) * perPage)).take (perPage * b)).length <
        perPage * b) := by
      rw [List.length_take]
      omega
    rw [if_neg hlt]
    have hdd : (page + b - 1) * perPage = (page - 1) * perPage + perPage * b := by
      have h4 : page + b - 1 = (page - 1) + b := by omega
      rw [h4]
      ring
    have hrw : data.drop ((page + b - 1) * perPage) =
        ((data.drop ((page - 1) * perPage)).drop (perPage * b)) := by
      rw [List.drop_drop, hdd]
    have hdiv := Nat.div_eq_sub_div hn hfull
    have hlen : ((data.drop ((page - 1) * perPage)).drop (perPage * b)).length =
        (data.drop ((page - 1) * perPage)).length - perPage * b := by
      simp only [List.length_drop]
    have hcond : fuel ≤ (data.drop ((page + b - 1) * perPage)).length / (perPage * b) := by
      rw [hrw, hlen]
      omega
    exact ih (page + b)
      (acc ++ (data.drop ((page - 1) * perPage)).take (perPage * b)) (by omega) hcond

/-- Claim C3: for any finite dataset and batch size at least 1, the fetch
loop terminates after exactly `T / (100 * batchSize) + 1` rounds (with
that much fuel it returns every record in order and caches them; with one
round less it is still unfinished), stopping in the round whose window is
the first to come back short; when `T` is an exact multiple of
`100 * batchSize`, the final extra round's window is empty. -/
theorem getRepos_terminates (data : List repository) (b : Nat) (hb : 1 ≤ b) :
    getRepos (pageFetch data) b true none (ascScheds b) (data.length / (100 * b) + 1) =
      (RunResult.ok data, some data) ∧
    getReposLoop (pageFetch data) b 100 (ascScheds b) (data.length / (100 * b)) 1 [] =
      RunResult.nofuel ∧
    ((100 * b) ∣ data.length →
      getReposPerPageBatch (pageFetch data) (1 + data.length / (100 * b) * b) 100 b
        (List.range b) = RunResult.ok []) := by
  have hdrop0 : data.drop ((1 - 1) * 100) = data := by simp
  refine ⟨?_, ?_, ?_⟩
  · have h1 := getReposLoop_pageFetch_ok data b 100 hb (by omega) (ascScheds b)
      (fun i => rfl) (data.length / (100 * b) + 1) 1 [] (by omega)
      (by rw [hdrop0])
    rw [hdrop0, List.nil_append] at h1
    simp only [getRepos, h1]
  · exact getReposLoop_pageFetch_nofuel data b 100 hb (by omega) (ascScheds b)
      (fun i => rfl) (data.length / (100 * b)) 1 [] (by omega)
      (by rw [hdrop0])
  · intro hdvd
    have h2 : getReposPerPageBatch (pageFetch data) (1 + data.length / (100 * b) * b)
        100 b (List.range b) =
        RunResult.ok ((List.range b).flatMap
          (fun i => pageSlice data (1 + data.length / (100 * b) * b + i) 100)) := by
      simp only [getReposPerPageBatch, batchGo_pageFetch, List.nil_append]
    rw [h2, flatMap_range_pageSlice data 100 b _ (by omega)]
    have h3 : (1 + data.length / (100 * b) * b - 1) * 100 = data.length := by
      have h4 : 1 + data.length / (100 * b) * b - 1 = data.length / (100 * b) * b := by
        omega
      rw [h4]
      calc data.length / (100 * b) * b * 100
          = data.length / (100 * b) * (100 * b) := by ring
        _ = data.length := Nat.div_mul_cancel hdvd
    rw [h3, List.drop_eq_nil_of_le (Nat.le_refl _), List.take_nil]

/-- Claim C3 witness: 101 records at batch size 2 are fetched whole in a
single round of fuel. -/
theorem getRepos_terminates_witness :
    getRepos (pageFetch data101) 2 true none (ascScheds 2)
        (data101.length / (100 * 2) + 1) =
      (RunResult.ok data101, some data101) :=
  (getRepos_terminates data101 2 (by decide)).1
